import Mathlib

/-!
Shallow embedding of `src/engine.rs` (unixzii/game-of-life), a Conway's
Game of Life engine with a double-buffered grid.

Modelling conventions:
* Rust `i32` values are Lean `Int`s; arithmetic that the source performs on
  `i32` goes through `wrap32` (two's-complement wraparound, i.e. release-mode
  semantics).  Casts `as usize` / `as i32` are `usizeOfI32` / `i32OfUsize`.
* A Rust `Vec<Cell>` is a `List Cell`.  `DoubleBuffer<Vec<Cell>>` keeps its two
  slots permanently occupied (`Some` between calls), so it is modelled as the
  two lists `front` and `back` of `World`; `swap` exchanges them.
* Fallible operations (indexed access out of range, division by zero,
  over-large allocation) return `Option`: `none` models the abrupt,
  process-terminating fault (panic/abort).
-/

/-- Two's-complement wraparound into the `i32` range `[-2^31, 2^31)`. -/
def wrap32 (v : Int) : Int :=
  (v + 2 ^ 31) % 2 ^ 32 - 2 ^ 31

/-- `i32` addition with release-mode (wrapping) overflow semantics. -/
def i32Add (a b : Int) : Int :=
  wrap32 (a + b)

/-- `i32` multiplication with release-mode (wrapping) overflow semantics. -/
def i32Mul (a b : Int) : Int :=
  wrap32 (a * b)

/-- The Rust cast `v as usize` applied to an `i32` value `v` (64-bit target):
sign-extend, then reinterpret, i.e. reduce modulo `2^64`. -/
def usizeOfI32 (v : Int) : Nat :=
  (v % 2 ^ 64).toNat

/-- The Rust cast `n as i32` applied to a `usize` value: truncate to the low
32 bits and reinterpret as signed. -/
def i32OfUsize (n : Nat) : Int :=
  wrap32 (n : Int)

/-- `engine.rs` lines 46-50: a cell is `Alive` or `Dead`. -/
inductive Cell where
  | Alive : Cell
  | Dead : Cell
deriving DecidableEq, Repr

/-- `engine.rs` lines 52-56: the world holds a `stride` (the width, an `i32`)
and a double-buffered cell store (`front` is the current generation, `back`
the scratch buffer for the next one). -/
structure World where
  stride : Int
  front : List Cell
  back : List Cell
deriving DecidableEq, Repr

/-- `engine.rs` lines 154-157: `index(x, y) = (stride * y + x) as usize`,
computed in `i32` arithmetic. -/
def World.index (w : World) (x y : Int) : Nat :=
  usizeOfI32 (i32Add (i32Mul w.stride y) x)

/-- The buffer length requested by `World::new`: `(width * height) as usize`. -/
def newLength (width height : Int) : Nat :=
  usizeOfI32 (i32Mul width height)

/-- `engine.rs` lines 59-74 (`World::new`): both buffers are built by the same
factory, a vector of `(width * height) as usize` cells, all `Dead`; the stride
is `width`.  `none` models the fatal abort when the requested capacity exceeds
the allocator's hard limit of `isize::MAX` bytes (beyond which `Vec` is
guaranteed to fail); smaller allocations are assumed to succeed. -/
def World.new? (width height : Int) : Option World :=
  if newLength width height ≤ 2 ^ 63 - 1 then
    some { stride := width,
           front := List.replicate (newLength width height) Cell.Dead,
           back := List.replicate (newLength width height) Cell.Dead }
  else
    none

/-- `engine.rs` lines 76-78: `width()` returns the stride. -/
def World.width (w : World) : Int :=
  w.stride

/-- `engine.rs` lines 80-82: `height()` is
`(front.len() / (stride as usize)) as i32`; `none` models the division-by-zero
panic when `stride as usize` is 0. -/
def World.height? (w : World) : Option Int :=
  if usizeOfI32 w.stride = 0 then
    none
  else
    some (i32OfUsize (w.front.length / usizeOfI32 w.stride))

/-- `engine.rs` lines 85-88 (`set_cell`): write `cell` into the front buffer at
`index(x, y)`; `none` models the panic of `Vec`'s indexed write when the index
is out of range. -/
def World.set_cell? (w : World) (x y : Int) (cell : Cell) : Option World :=
  if w.index x y < w.front.length then
    some { w with front := w.front.set (w.index x y) cell }
  else
    none

/-- `engine.rs` lines 91-94 (`cell_at`): read the front buffer at
`index(x, y)`; `none` models the panic of `Vec`'s indexed read when the index
is out of range. -/
def World.cell_at? (w : World) (x y : Int) : Option Cell :=
  w.front[w.index x y]?

/-- `engine.rs` line 98: the offset list `[-1, 0, 1]`. -/
def dir : List Int :=
  [-1, 0, 1]

/-- One inner-loop iteration of `neighbour_count` (`engine.rs` lines 102-114)
for the offset `(dx, dy)`: skip neighbours with a negative coordinate and the
cell itself; skip indices at or beyond the front buffer's length; otherwise
read the front buffer and count an `Alive` cell. -/
def World.neighbourStep (w : World) (x y dx dy count : Int) : Option Int :=
  let dest_x := i32Add x dx
  let dest_y := i32Add y dy
  if dest_x < 0 ∨ dest_y < 0 ∨ (dest_x = x ∧ dest_y = y) then
    some count
  else
    let dest_index := w.index dest_x dest_y
    if w.front.length ≤ dest_index then
      some count
    else
      match w.front[dest_index]? with
      | some cell => some (if cell = Cell.Alive then count + 1 else count)
      | none => none

/-- `engine.rs` lines 97-118 (`neighbour_count`): fold the step over
`dir × dir` (outer loop `x_dir`, inner loop `y_dir`), starting from 0. -/
def World.neighbour_count? (w : World) (x y : Int) : Option Int :=
  dir.foldl (fun acc dx =>
    dir.foldl (fun acc2 dy => acc2.bind (fun c => w.neighbourStep x y dx dy c)) acc)
    (some 0)

/-- `engine.rs` lines 129-142: the rule applied to the current front cell and
its neighbour count.  The source's `match`: range pattern `0..2` (half-open,
so 0 or 1) gives `Dead`, `2..=3` gives `Alive`, everything else `Dead`; a dead
cell revives exactly on a count of 3. -/
def lifeRule (cur : Cell) (n : Int) : Cell :=
  match cur with
  | Cell.Alive =>
      if 0 ≤ n ∧ n < 2 then Cell.Dead
      else if 2 ≤ n ∧ n ≤ 3 then Cell.Alive
      else Cell.Dead
  | Cell.Dead =>
      if n = 3 then Cell.Alive else Cell.Dead

/-- The iteration range `0..n` of a Rust `for` loop over `i32`, as a list of
`Int`s (empty when `n ≤ 0`). -/
def intRange (n : Int) : List Int :=
  (List.range n.toNat).map Int.ofNat

/-- One body execution of the nested loop in `next_gen` (`engine.rs` lines
124-146) at position `(row, col)`: compute the index and the neighbour count,
read the current front cell (unguarded indexed read), and write the rule's
result into the back buffer (unguarded indexed write). -/
def World.genStep (w : World) (back : List Cell) (row col : Int) : Option (List Cell) :=
  let index := w.index row col
  match w.neighbour_count? row col with
  | none => none
  | some n =>
    match w.front[index]? with
    | none => none
    | some cur =>
      if index < back.length then
        some (back.set index (lifeRule cur n))
      else
        none

/-- The inner loop of `next_gen` (`engine.rs` line 123): `row` runs over
`0..width()`. -/
def World.genRow (w : World) (back : List Cell) (col : Int) : Option (List Cell) :=
  (intRange w.stride).foldl
    (fun acc row => acc.bind (fun b => w.genStep b row col)) (some back)

/-- `engine.rs` lines 121-152 (`next_gen`): `col` runs over `0..height()`
(computing `height()` may itself panic), each position's result is written
into the back buffer, and the buffers are swapped at the end (`swap`,
`engine.rs` lines 24-28: the filled back buffer becomes front, the old front
becomes back). -/
def World.next_gen? (w : World) : Option World :=
  match w.height? with
  | none => none
  | some h =>
    match (intRange h).foldl
        (fun acc col => acc.bind (fun b => w.genRow b col)) (some w.back) with
    | none => none
    | some newBack =>
      some { stride := w.stride, front := newBack, back := w.front }

/-- `height()` as a natural number (meaningful when the stride is positive):
`front.length / stride`. -/
def World.heightN (w : World) : Nat :=
  w.front.length / w.stride.toNat

/-- `(x, y)` is an in-range coordinate of `w`: `0 ≤ x < width` and
`0 ≤ y < height`. -/
def World.InRange (w : World) (x y : Int) : Prop :=
  0 ≤ x ∧ x < w.stride ∧ 0 ≤ y ∧ y < (w.heightN : Int)

instance (w : World) (x y : Int) : Decidable (w.InRange x y) := by
  unfold World.InRange
  infer_instance

/-- Well-formedness of a world, as established by a successful construction
with positive dimensions of reasonable size: positive stride, equal buffer
lengths, and enough headroom below `2^31` that the index arithmetic of
in-range cells and their neighbours cannot overflow `i32`. -/
def World.WF (w : World) : Prop :=
  0 < w.stride ∧ w.back.length = w.front.length ∧
    (w.front.length : Int) + 2 * w.stride + 2 < 2 ^ 31

instance (w : World) : Decidable w.WF := by
  unfold World.WF
  infer_instance

/-- An externally driven engine call: a single-cell edit or a generation
step (§6 of the spec: the engine's whole mutating interface). -/
inductive Op where
  | set (x y : Int) (cell : Cell) : Op
  | advance : Op

/-- Run one engine call. -/
def World.applyOp (w : World) : Op → Option World
  | Op.set x y cell => w.set_cell? x y cell
  | Op.advance => w.next_gen?

/-- Run a sequence of engine calls, stopping at the first fault. -/
def World.applyOps? (w : World) : List Op → Option World
  | [] => some w
  | op :: rest => (w.applyOp op).bind (fun w1 => w1.applyOps? rest)

/-- Iterate `next_gen` `n` times. -/
def World.advanceN? (w : World) : Nat → Option World
  | 0 => some w
  | n + 1 => w.next_gen?.bind (fun w1 => w1.advanceN? n)

/-- The per-cell transition rule exactly as the specification words it:
Alive with `n < 2` dies, Alive with `n = 2` or `n = 3` survives, Alive with
`n > 3` dies, Dead with `n = 3` revives, Dead otherwise stays dead. -/
def specRule (cur : Cell) (n : Int) : Cell :=
  match cur with
  | Cell.Alive =>
      if n < 2 then Cell.Dead
      else if n = 2 ∨ n = 3 then Cell.Alive
      else Cell.Dead
  | Cell.Dead =>
      if n = 3 then Cell.Alive else Cell.Dead

/-- The 8 Moore-neighbourhood offsets, in the source's loop order with the
centre removed. -/
def mooreOffsets : List (Int × Int) :=
  [(-1, -1), (-1, 0), (-1, 1), (0, -1), (0, 1), (1, -1), (1, 0), (1, 1)]

/-- The specification's counting condition for the offset `(dx, dy)` of the
cell `(x, y)`, in a world of height `hgt`: both shifted coordinates are
non-negative, the linear index `(y+dy)*width + (x+dx)` is strictly below
`width*hgt`, and the front buffer holds an `Alive` cell there. -/
def neighbourHit (w : World) (hgt x y dx dy : Int) : Bool :=
  decide (0 ≤ x + dx) && decide (0 ≤ y + dy) &&
    decide (w.stride * (y + dy) + (x + dx) < w.stride * hgt) &&
    (w.front[(w.stride * (y + dy) + (x + dx)).toNat]? == some Cell.Alive)

/-- The neighbour count as the specification describes it: the number of
Moore offsets satisfying `neighbourHit`. -/
def neighbourCountSpec (w : World) (hgt x y : Int) : Int :=
  (mooreOffsets.countP (fun p => neighbourHit w hgt x y p.1 p.2) : Int)

/-! ### Arithmetic helper lemmas -/

theorem wrap32_eq_of_small {v : Int} (h1 : -(2 ^ 31) ≤ v) (h2 : v < 2 ^ 31) :
    wrap32 v = v := by
  unfold wrap32
  have hnn : 0 ≤ v + 2 ^ 31 := by omega
  have hlt : v + 2 ^ 31 < 2 ^ 32 := by omega
  rw [Int.emod_eq_of_lt hnn hlt]
  omega

theorem i32Add_eq_of_small {a b : Int} (h1 : -(2 ^ 31) ≤ a + b) (h2 : a + b < 2 ^ 31) :
    i32Add a b = a + b :=
  wrap32_eq_of_small h1 h2

theorem i32Mul_eq_of_small {a b : Int} (h1 : -(2 ^ 31) ≤ a * b) (h2 : a * b < 2 ^ 31) :
    i32Mul a b = a * b :=
  wrap32_eq_of_small h1 h2

theorem usizeOfI32_eq_toNat {v : Int} (h1 : 0 ≤ v) (h2 : v < 2 ^ 64) :
    usizeOfI32 v = v.toNat := by
  unfold usizeOfI32
  rw [Int.emod_eq_of_lt h1 h2]

/-- For non-negative coordinates whose row-major value stays below `2^31`
(and a non-negative stride), `index` computes the mathematical row-major
index: no `i32` or cast wraparound occurs. -/
theorem World.index_eq (w : World) {x y : Int} (hx : 0 ≤ x) (hy : 0 ≤ y)
    (hs : 0 ≤ w.stride) (h : w.stride * y + x < 2 ^ 31) :
    w.index x y = (w.stride * y + x).toNat := by
  unfold World.index
  have hmul : 0 ≤ w.stride * y := mul_nonneg hs hy
  rw [i32Mul_eq_of_small (by omega) (by omega),
      i32Add_eq_of_small (by omega) (by omega),
      usizeOfI32_eq_toNat (by omega) (by omega)]

/-- `foldl` preserves any predicate that every step preserves. -/
theorem foldl_preserves {σ α : Type} {P : σ → Prop} (g : σ → α → σ)
    (l : List α) (init : σ) (h0 : P init) (hstep : ∀ s a, P s → P (g s a)) :
    P (l.foldl g init) := by
  induction l generalizing init with
  | nil => exact h0
  | cons a t ih => exact ih _ (hstep _ _ h0)

/-! ### `neighbour_count` lemmas -/

/-- Every single neighbour step succeeds and increments the running count by
at most one: the only indexed read is guarded by the length check. -/
theorem World.neighbourStep_some (w : World) (x y dx dy c : Int) :
    ∃ c', w.neighbourStep x y dx dy c = some c' ∧ c ≤ c' ∧ c' ≤ c + 1 := by
  unfold World.neighbourStep
  by_cases h1 : i32Add x dx < 0 ∨ i32Add y dy < 0 ∨ (i32Add x dx = x ∧ i32Add y dy = y)
  · exact ⟨c, by simp [h1], le_refl c, by omega⟩
  · simp only [if_neg h1]
    by_cases h2 : w.front.length ≤ w.index (i32Add x dx) (i32Add y dy)
    · exact ⟨c, by simp [h2], le_refl c, by omega⟩
    · have hlt : w.index (i32Add x dx) (i32Add y dy) < w.front.length := by omega
      refine ⟨if w.front.get ⟨w.index (i32Add x dx) (i32Add y dy), hlt⟩ = Cell.Alive
                then c + 1 else c, ?_, ?_, ?_⟩
      · simp [if_neg h2, List.getElem?_eq_getElem hlt]
      · split <;> omega
      · split <;> omega

/-- `neighbour_count` never faults, whatever the coordinates. -/
theorem World.neighbour_count?_isSome (w : World) (x y : Int) :
    (w.neighbour_count? x y).isSome = true := by
  unfold World.neighbour_count?
  refine foldl_preserves (P := fun o : Option Int => o.isSome = true)
    _ dir (some 0) rfl (fun s dx hs => ?_)
  refine foldl_preserves (P := fun o : Option Int => o.isSome = true)
    _ dir s hs (fun s2 dy hs2 => ?_)
  match s2, hs2 with
  | some c, _ =>
    obtain ⟨c', hc', -, -⟩ := w.neighbourStep_some x y dx dy c
    simp [hc']

/-- A successful `neighbour_count` is non-negative. -/
theorem World.neighbour_count?_nonneg (w : World) (x y : Int) {n : Int}
    (h : w.neighbour_count? x y = some n) : 0 ≤ n := by
  unfold World.neighbour_count? at h
  have key : ∀ m, (dir.foldl (fun acc dx =>
      dir.foldl (fun acc2 dy => acc2.bind (fun c => w.neighbourStep x y dx dy c)) acc)
      (some 0)) = some m → 0 ≤ m := by
    refine foldl_preserves (P := fun o : Option Int => ∀ m, o = some m → 0 ≤ m)
      _ dir (some 0) (fun m hm => by cases hm; omega) (fun s dx hs => ?_)
    refine foldl_preserves (P := fun o : Option Int => ∀ m, o = some m → 0 ≤ m)
      _ dir s hs (fun s2 dy hs2 => ?_)
    intro m hm
    match s2, hs2 with
    | some c, hs2 =>
      obtain ⟨c', hc', hle, -⟩ := w.neighbourStep_some x y dx dy c
      simp only [Option.some_bind, hc'] at hm
      cases hm
      exact le_trans (hs2 c rfl) hle
  exact key n h

/-- On an all-Dead front buffer a neighbour step never increments. -/
theorem World.neighbourStep_all_dead (w : World) (x y dx dy c : Int)
    (hdead : ∀ (i : Nat) (cell : Cell), w.front[i]? = some cell → cell = Cell.Dead) :
    w.neighbourStep x y dx dy c = some c := by
  unfold World.neighbourStep
  by_cases h1 : i32Add x dx < 0 ∨ i32Add y dy < 0 ∨ (i32Add x dx = x ∧ i32Add y dy = y)
  · simp [h1]
  · simp only [if_neg h1]
    by_cases h2 : w.front.length ≤ w.index (i32Add x dx) (i32Add y dy)
    · simp [h2]
    · have hlt : w.index (i32Add x dx) (i32Add y dy) < w.front.length := by omega
      have hv := hdead _ _ (List.getElem?_eq_getElem hlt)
      simp [if_neg h2, List.getElem?_eq_getElem hlt, hv]

/-- On an all-Dead front buffer the neighbour count is 0. -/
theorem World.neighbour_count?_all_dead (w : World) (x y : Int)
    (hdead : ∀ (i : Nat) (cell : Cell), w.front[i]? = some cell → cell = Cell.Dead) :
    w.neighbour_count? x y = some 0 := by
  unfold World.neighbour_count?
  refine foldl_preserves (P := fun o : Option Int => o = some 0)
    _ dir (some 0) rfl (fun s dx hs => ?_)
  refine foldl_preserves (P := fun o : Option Int => o = some 0)
    _ dir s hs (fun s2 dy hs2 => ?_)
  subst hs2
  simp [w.neighbourStep_all_dead x y dx dy 0 hdead]

/-- A non-centre neighbour step of an in-range cell of a well-formed world
adds exactly the indicator of the specification's counting condition. -/
theorem World.neighbourStep_eq (w : World) {hgt x y : Int} (dx dy c : Int)
    (hwf : w.WF) (hlen : (w.front.length : Int) = w.stride * hgt)
    (hx : 0 ≤ x) (hx2 : x < w.stride) (hy : 0 ≤ y) (hy2 : y < hgt)
    (hdx : -1 ≤ dx ∧ dx ≤ 1) (hdy : -1 ≤ dy ∧ dy ≤ 1)
    (hne : ¬(dx = 0 ∧ dy = 0)) :
    w.neighbourStep x y dx dy c =
      some (c + if neighbourHit w hgt x y dx dy then 1 else 0) := by
  obtain ⟨hspos, hbl, hsmall⟩ := hwf
  have hlen0 : (0 : Int) ≤ (w.front.length : Int) := Int.ofNat_nonneg _
  have hgt1 : 1 ≤ hgt := by omega
  have hgtle : hgt ≤ (w.front.length : Int) := by
    calc hgt = 1 * hgt := (one_mul hgt).symm
    _ ≤ w.stride * hgt := by
        exact mul_le_mul_of_nonneg_right (by omega) (by omega)
    _ = (w.front.length : Int) := hlen.symm
  have hax : i32Add x dx = x + dx := i32Add_eq_of_small (by omega) (by omega)
  have hay : i32Add y dy = y + dy := i32Add_eq_of_small (by omega) (by omega)
  simp only [World.neighbourStep, hax, hay]
  by_cases hskip : x + dx < 0 ∨ y + dy < 0 ∨ (x + dx = x ∧ y + dy = y)
  · rw [if_pos hskip]
    have hhit : neighbourHit w hgt x y dx dy = false := by
      rcases hskip with h | h | ⟨h1, h2⟩
      · unfold neighbourHit
        rw [decide_eq_false (by omega : ¬(0 ≤ x + dx))]
        simp
      · unfold neighbourHit
        rw [decide_eq_false (by omega : ¬(0 ≤ y + dy))]
        simp
      · exact absurd ⟨by omega, by omega⟩ hne
    rw [hhit]
    simp
  · rw [if_neg hskip]
    push_neg at hskip
    obtain ⟨hdx0, hdy0, -⟩ := hskip
    have hmono : w.stride * (y + dy) ≤ w.stride * hgt :=
      mul_le_mul_of_nonneg_left (by omega) (by omega)
    have hidx : w.index (x + dx) (y + dy) =
        (w.stride * (y + dy) + (x + dx)).toNat :=
      w.index_eq hdx0 hdy0 (by omega) (by omega)
    rw [hidx]
    have hv0 : (0 : Int) ≤ w.stride * (y + dy) + (x + dx) :=
      add_nonneg (mul_nonneg (by omega) hdy0) hdx0
    by_cases hoob : w.front.length ≤ (w.stride * (y + dy) + (x + dx)).toNat
    · rw [if_pos hoob]
      have hhit : neighbourHit w hgt x y dx dy = false := by
        unfold neighbourHit
        rw [decide_eq_false
          (by omega : ¬(w.stride * (y + dy) + (x + dx) < w.stride * hgt))]
        simp
      rw [hhit]
      simp
    · rw [if_neg hoob]
      have hlt : (w.stride * (y + dy) + (x + dx)).toNat < w.front.length := by omega
      rw [List.getElem?_eq_getElem hlt]
      have hhit : neighbourHit w hgt x y dx dy =
          (w.front.get ⟨(w.stride * (y + dy) + (x + dx)).toNat, hlt⟩ == Cell.Alive) := by
        unfold neighbourHit
        rw [decide_eq_true (by omega : (0 : Int) ≤ x + dx),
            decide_eq_true (by omega : (0 : Int) ≤ y + dy),
            decide_eq_true
              (by omega : w.stride * (y + dy) + (x + dx) < w.stride * hgt),
            List.getElem?_eq_getElem hlt]
        simp
      rw [hhit]
      by_cases hc : w.front.get ⟨(w.stride * (y + dy) + (x + dx)).toNat, hlt⟩ = Cell.Alive
      · rw [List.get_eq_getElem] at hc
        simp [hc]
      · rw [List.get_eq_getElem] at hc
        simp [hc]

/-- The centre offset `(0, 0)` is skipped (for `i32`-representable
coordinates). -/
theorem World.neighbourStep_centre (w : World) {x y : Int} (c : Int)
    (hx1 : -(2 ^ 31) ≤ x) (hx2 : x < 2 ^ 31)
    (hy1 : -(2 ^ 31) ≤ y) (hy2 : y < 2 ^ 31) :
    w.neighbourStep x y 0 0 c = some c := by
  have hax : i32Add x 0 = x := by
    unfold i32Add
    rw [add_zero]
    exact wrap32_eq_of_small hx1 hx2
  have hay : i32Add y 0 = y := by
    unfold i32Add
    rw [add_zero]
    exact wrap32_eq_of_small hy1 hy2
  simp only [World.neighbourStep, hax, hay]
  simp

/-- For an in-range cell of a well-formed world (with `hgt` the world's height,
i.e. `len = width * hgt`), `neighbour_count` returns exactly the number of
Moore offsets satisfying the specification's condition `neighbourHit`. -/
theorem World.neighbour_count?_eq_spec (w : World) {hgt x y : Int}
    (hwf : w.WF) (hlen : (w.front.length : Int) = w.stride * hgt)
    (hx : 0 ≤ x) (hx2 : x < w.stride) (hy : 0 ≤ y) (hy2 : y < hgt) :
    w.neighbour_count? x y = some (neighbourCountSpec w hgt x y) := by
  have hsmall := hwf.2.2
  have hlen0 : (0 : Int) ≤ (w.front.length : Int) := Int.ofNat_nonneg _
  have hspos := hwf.1
  have hgtle : hgt ≤ (w.front.length : Int) := by
    calc hgt = 1 * hgt := (one_mul hgt).symm
    _ ≤ w.stride * hgt := mul_le_mul_of_nonneg_right (by omega) (by omega)
    _ = (w.front.length : Int) := hlen.symm
  have ec : ∀ c : Int, w.neighbourStep x y 0 0 c = some c := fun c =>
    w.neighbourStep_centre c (by omega) (by omega) (by omega) (by omega)
  have e1 : ∀ c : Int, w.neighbourStep x y (-1) (-1) c =
      some (c + if neighbourHit w hgt x y (-1) (-1) then 1 else 0) := fun c =>
    w.neighbourStep_eq (-1) (-1) c ⟨hspos, hwf.2.1, hsmall⟩ hlen hx hx2 hy hy2
      ⟨by omega, by omega⟩ ⟨by omega, by omega⟩ (by omega)
  have e2 : ∀ c : Int, w.neighbourStep x y (-1) 0 c =
      some (c + if neighbourHit w hgt x y (-1) 0 then 1 else 0) := fun c =>
    w.neighbourStep_eq (-1) 0 c ⟨hspos, hwf.2.1, hsmall⟩ hlen hx hx2 hy hy2
      ⟨by omega, by omega⟩ ⟨by omega, by omega⟩ (by omega)
  have e3 : ∀ c : Int, w.neighbourStep x y (-1) 1 c =
      some (c + if neighbourHit w hgt x y (-1) 1 then 1 else 0) := fun c =>
    w.neighbourStep_eq (-1) 1 c ⟨hspos, hwf.2.1, hsmall⟩ hlen hx hx2 hy hy2
      ⟨by omega, by omega⟩ ⟨by omega, by omega⟩ (by omega)
  have e4 : ∀ c : Int, w.neighbourStep x y 0 (-1) c =
      some (c + if neighbourHit w hgt x y 0 (-1) then 1 else 0) := fun c =>
    w.neighbourStep_eq 0 (-1) c ⟨hspos, hwf.2.1, hsmall⟩ hlen hx hx2 hy hy2
      ⟨by omega, by omega⟩ ⟨by omega, by omega⟩ (by omega)
  have e5 : ∀ c : Int, w.neighbourStep x y 0 1 c =
      some (c + if neighbourHit w hgt x y 0 1 then 1 else 0) := fun c =>
    w.neighbourStep_eq 0 1 c ⟨hspos, hwf.2.1, hsmall⟩ hlen hx hx2 hy hy2
      ⟨by omega, by omega⟩ ⟨by omega, by omega⟩ (by omega)
  have e6 : ∀ c : Int, w.neighbourStep x y 1 (-1) c =
      some (c + if neighbourHit w hgt x y 1 (-1) then 1 else 0) := fun c =>
    w.neighbourStep_eq 1 (-1) c ⟨hspos, hwf.2.1, hsmall⟩ hlen hx hx2 hy hy2
      ⟨by omega, by omega⟩ ⟨by omega, by omega⟩ (by omega)
  have e7 : ∀ c : Int, w.neighbourStep x y 1 0 c =
      some (c + if neighbourHit w hgt x y 1 0 then 1 else 0) := fun c =>
    w.neighbourStep_eq 1 0 c ⟨hspos, hwf.2.1, hsmall⟩ hlen hx hx2 hy hy2
      ⟨by omega, by omega⟩ ⟨by omega, by omega⟩ (by omega)
  have e8 : ∀ c : Int, w.neighbourStep x y 1 1 c =
      some (c + if neighbourHit w hgt x y 1 1 then 1 else 0) := fun c =>
    w.neighbourStep_eq 1 1 c ⟨hspos, hwf.2.1, hsmall⟩ hlen hx hx2 hy hy2
      ⟨by omega, by omega⟩ ⟨by omega, by omega⟩ (by omega)
  unfold World.neighbour_count? dir
  simp only [List.foldl, Option.some_bind, e1, e2, e3, e4, e5, e6, e7, e8, ec]
  unfold neighbourCountSpec mooreOffsets
  simp only [List.countP_cons, List.countP_nil]
  push_cast [Nat.cast_ite]
  ring_nf

/-! ### `next_gen` machinery -/

/-- `index` on cast natural coordinates with a small row-major value computes
the exact row-major index. -/
theorem World.index_natCast (w : World) (hs : 0 ≤ w.stride) {r c : Nat}
    (h : w.stride.toNat * c + r < 2 ^ 31) :
    w.index (r : Int) (c : Int) = w.stride.toNat * c + r := by
  have hsW : ((w.stride.toNat : Nat) : Int) = w.stride := Int.toNat_of_nonneg hs
  have key : w.stride * (c : Int) + (r : Int) = ((w.stride.toNat * c + r : Nat) : Int) := by
    push_cast
    rw [hsW]
  have h2 : w.stride * (c : Int) + (r : Int) < 2 ^ 31 := by
    rw [key]
    exact_mod_cast h
  rw [w.index_eq (Int.ofNat_nonneg r) (Int.ofNat_nonneg c) hs h2, key,
    Int.toNat_ofNat]

/-- The front-buffer length of a well-formed world is below `2^31`. -/
theorem World.WF.len_lt (hwf : World.WF w) : w.front.length < 2 ^ 31 := by
  have h := hwf.2.2
  have h1 := hwf.1
  omega

/-- In a well-formed world, the row-major index of an in-range cell is below
the front-buffer length. -/
theorem World.inIdx_lt (w : World) {r c : Nat}
    (hr : r < w.stride.toNat) (hc : c < w.heightN) :
    w.stride.toNat * c + r < w.front.length := by
  unfold World.heightN at hc
  have hdm : w.front.length / w.stride.toNat * w.stride.toNat ≤ w.front.length :=
    Nat.div_mul_le_self _ _
  have hmul : w.stride.toNat * c + w.stride.toNat ≤
      w.stride.toNat * (w.front.length / w.stride.toNat) := by
    have h2 : w.stride.toNat * (c + 1) ≤
        w.stride.toNat * (w.front.length / w.stride.toNat) :=
      Nat.mul_le_mul_left _ hc
    rw [Nat.mul_succ] at h2
    exact h2
  have hcomm : w.stride.toNat * (w.front.length / w.stride.toNat) =
      w.front.length / w.stride.toNat * w.stride.toNat := Nat.mul_comm _ _
  omega

set_option maxHeartbeats 1000000 in
/-- One `next_gen` loop body at in-range position `(r, c)`: it succeeds and
writes `lifeRule` of the current front cell and its neighbour count into the
back buffer at the row-major index. -/
theorem World.genStep_eq (w : World) {b : List Cell} {r c : Nat}
    (hwf : w.WF) (hb : b.length = w.front.length)
    (hr : r < w.stride.toNat) (hc : c < w.heightN) :
    ∃ n cur, w.neighbour_count? (r : Int) (c : Int) = some n ∧
      w.front[w.stride.toNat * c + r]? = some cur ∧
      w.genStep b (r : Int) (c : Int) =
        some (b.set (w.stride.toNat * c + r) (lifeRule cur n)) := by
  have hlt : w.stride.toNat * c + r < w.front.length := w.inIdx_lt hr hc
  have hidx : w.index (r : Int) (c : Int) = w.stride.toNat * c + r :=
    w.index_natCast (le_of_lt hwf.1) (lt_trans hlt hwf.len_lt)
  have hfr : w.front[w.stride.toNat * c + r]? =
      some (w.front.get ⟨w.stride.toNat * c + r, hlt⟩) := List.getElem?_eq_getElem hlt
  have hnc := w.neighbour_count?_isSome (r : Int) (c : Int)
  obtain ⟨n, hn⟩ := Option.isSome_iff_exists.mp hnc
  refine ⟨n, w.front.get ⟨w.stride.toNat * c + r, hlt⟩, hn, hfr, ?_⟩
  simp only [World.genStep, hidx, hn, hfr]
  rw [if_pos (by omega : w.stride.toNat * c + r < b.length)]

set_option maxHeartbeats 1000000 in
/-- The inner row loop of `next_gen` at in-range column `c`: it succeeds,
preserves the buffer length, modifies only the index block
`[W*c, W*c + W)`, and writes each cell of that row as `lifeRule` of the old
front cell and its neighbour count. -/
theorem World.genRow_spec (w : World) (hwf : w.WF) {c : Nat} (hc : c < w.heightN)
    {b : List Cell} (hb : b.length = w.front.length) :
    ∃ b', w.genRow b (c : Int) = some b' ∧ b'.length = w.front.length ∧
      (∀ p : Nat,
        (p < w.stride.toNat * c ∨ w.stride.toNat * c + w.stride.toNat ≤ p) →
        b'[p]? = b[p]?) ∧
      (∀ r : Nat, r < w.stride.toNat →
        ∃ n cur, w.neighbour_count? (r : Int) (c : Int) = some n ∧
          w.front[w.stride.toNat * c + r]? = some cur ∧
          b'[w.stride.toNat * c + r]? = some (lifeRule cur n)) := by
  have aux : ∀ k, k ≤ w.stride.toNat → ∃ b',
      ((List.range k).map Int.ofNat).foldl
        (fun acc row => acc.bind (fun bb => w.genStep bb row (c : Int)))
        (some b) = some b' ∧
      b'.length = w.front.length ∧
      (∀ p : Nat, (p < w.stride.toNat * c ∨ w.stride.toNat * c + k ≤ p) →
        b'[p]? = b[p]?) ∧
      (∀ r : Nat, r < k →
        ∃ n cur, w.neighbour_count? (r : Int) (c : Int) = some n ∧
          w.front[w.stride.toNat * c + r]? = some cur ∧
          b'[w.stride.toNat * c + r]? = some (lifeRule cur n)) := by
    intro k
    induction k with
    | zero =>
      intro _
      exact ⟨b, rfl, hb, fun p _ => rfl, fun r hr => absurd hr (Nat.not_lt_zero r)⟩
    | succ k ih =>
      intro hk
      obtain ⟨b1, hfold, hlen1, hframe1, heff1⟩ := ih (by omega)
      obtain ⟨n, cur, hn, hcur, hstep⟩ :=
        w.genStep_eq (b := b1) hwf hlen1 (by omega : k < w.stride.toNat) hc
      have hlt : w.stride.toNat * c + k < b1.length := by
        have := w.inIdx_lt (r := k) (c := c) (by omega) hc
        omega
      refine ⟨b1.set (w.stride.toNat * c + k) (lifeRule cur n), ?_, ?_, ?_, ?_⟩
      · rw [List.range_succ, List.map_append, List.foldl_append, hfold]
        simpa [Int.ofNat_eq_coe] using hstep
      · rw [List.length_set]
        exact hlen1
      · intro p hp
        have hne : w.stride.toNat * c + k ≠ p := by omega
        rw [List.getElem?_set_ne hne]
        exact hframe1 p (by omega)
      · intro r hr
        by_cases hrk : r = k
        · subst hrk
          exact ⟨n, cur, hn, hcur, by rw [List.getElem?_set_self hlt]⟩
        · obtain ⟨n', cur', hn', hcur', hb1⟩ := heff1 r (by omega)
          refine ⟨n', cur', hn', hcur', ?_⟩
          rw [List.getElem?_set_ne
            (by omega : w.stride.toNat * c + k ≠ w.stride.toNat * c + r)]
          exact hb1
  obtain ⟨b', hfold, hlen, hframe, heff⟩ := aux w.stride.toNat le_rfl
  refine ⟨b', ?_, hlen, hframe, heff⟩
  unfold World.genRow intRange
  exact hfold

set_option maxHeartbeats 1000000 in
/-- `next_gen` on a well-formed world: it succeeds, the swap retires the old
front buffer as the new back buffer, and the new front buffer holds, at every
in-range position, `lifeRule` applied to the old front cell and its old-world
neighbour count; positions at or beyond `W*H` (absent in a constructed world)
keep the old back buffer's contents. -/
theorem World.next_gen_spec (w : World) (hwf : w.WF) :
    ∃ w', w.next_gen? = some w' ∧ w'.stride = w.stride ∧ w'.back = w.front ∧
      w'.front.length = w.front.length ∧
      (∀ r c : Nat, r < w.stride.toNat → c < w.heightN →
        ∃ n cur, w.neighbour_count? (r : Int) (c : Int) = some n ∧
          w.front[w.stride.toNat * c + r]? = some cur ∧
          w'.front[w.stride.toNat * c + r]? = some (lifeRule cur n)) ∧
      (∀ p : Nat, w.stride.toNat * w.heightN ≤ p → w'.front[p]? = w.back[p]?) := by
  have hback : w.back.length = w.front.length := hwf.2.1
  have aux : ∀ k, k ≤ w.heightN → ∃ b',
      ((List.range k).map Int.ofNat).foldl
        (fun acc col => acc.bind (fun bb => w.genRow bb col)) (some w.back) = some b' ∧
      b'.length = w.front.length ∧
      (∀ p : Nat, w.stride.toNat * k ≤ p → b'[p]? = w.back[p]?) ∧
      (∀ c : Nat, c < k → ∀ r : Nat, r < w.stride.toNat →
        ∃ n cur, w.neighbour_count? (r : Int) (c : Int) = some n ∧
          w.front[w.stride.toNat * c + r]? = some cur ∧
          b'[w.stride.toNat * c + r]? = some (lifeRule cur n)) := by
    intro k
    induction k with
    | zero =>
      intro _
      exact ⟨w.back, rfl, hback, fun p _ => rfl,
        fun c hc => absurd hc (Nat.not_lt_zero c)⟩
    | succ k ih =>
      intro hk
      obtain ⟨b1, hfold, hlen1, hframe1, heff1⟩ := ih (by omega)
      obtain ⟨b2, hrow, hlen2, hframe2, heff2⟩ :=
        w.genRow_spec hwf (c := k) (by omega) hlen1
      refine ⟨b2, ?_, hlen2, ?_, ?_⟩
      · rw [List.range_succ, List.map_append, List.foldl_append, hfold]
        simpa [Int.ofNat_eq_coe] using hrow
      · intro p hp
        have hms : w.stride.toNat * (k + 1) = w.stride.toNat * k + w.stride.toNat := by
          ring
        rw [hframe2 p (Or.inr (by omega))]
        exact hframe1 p (by omega)
      · intro c hc r hr
        by_cases hck : c = k
        · subst hck
          exact heff2 r hr
        · obtain ⟨n, cur, hn, hcur, hb1⟩ := heff1 c (by omega) r hr
          refine ⟨n, cur, hn, hcur, ?_⟩
          have hle : w.stride.toNat * (c + 1) ≤ w.stride.toNat * k :=
            Nat.mul_le_mul_left _ (by omega)
          have hms : w.stride.toNat * (c + 1) = w.stride.toNat * c + w.stride.toNat := by
            ring
          rw [hframe2 _ (Or.inl (by omega))]
          exact hb1
  obtain ⟨b', hfold, hlen, hframe, heff⟩ := aux w.heightN le_rfl
  have hs31 : w.stride < 2 ^ 31 := by
    have h1 := hwf.2.2
    have h2 : (0 : Int) ≤ (w.front.length : Int) := Int.ofNat_nonneg _
    omega
  have hW : usizeOfI32 w.stride = w.stride.toNat :=
    usizeOfI32_eq_toNat (le_of_lt hwf.1) (by omega)
  have hW0 : ¬(usizeOfI32 w.stride = 0) := by
    rw [hW]
    have := hwf.1
    omega
  have hlen31 : (w.front.length : Int) < 2 ^ 31 := by
    have h1 := hwf.2.2
    have h2 := hwf.1
    omega
  have hH : i32OfUsize (w.front.length / usizeOfI32 w.stride) = (w.heightN : Int) := by
    rw [hW]
    unfold i32OfUsize World.heightN
    have hd : w.front.length / w.stride.toNat ≤ w.front.length := Nat.div_le_self _ _
    have hcast : ((w.front.length / w.stride.toNat : Nat) : Int) ≤ (w.front.length : Int) :=
      Int.ofNat_le.mpr hd
    have hge : (0 : Int) ≤ ((w.front.length / w.stride.toNat : Nat) : Int) :=
      Int.ofNat_nonneg _
    exact wrap32_eq_of_small (le_trans (by omega) hge) (by omega)
  have hheight : w.height? = some (w.heightN : Int) := by
    unfold World.height?
    rw [if_neg hW0, hH]
  have hrange : intRange ((w.heightN : Nat) : Int) = (List.range w.heightN).map Int.ofNat := by
    unfold intRange
    rw [Int.toNat_ofNat]
  refine ⟨⟨w.stride, b', w.front⟩, ?_, rfl, rfl, hlen,
    fun r c hr hc => heff c hc r hr, fun p hp => hframe p hp⟩
  simp only [World.next_gen?, hheight, hrange, hfold]

/-! ### Claim-level helpers -/

/-- Since neighbour counts are non-negative, the source's rule agrees with
the rule exactly as the specification words it. -/
theorem lifeRule_eq_specRule (cur : Cell) {n : Int} (h : 0 ≤ n) :
    lifeRule cur n = specRule cur n := by
  cases cur <;> unfold lifeRule specRule <;> split_ifs <;> first | rfl | omega

/-- In-range integer coordinates are casts of in-range natural coordinates. -/
theorem World.InRange_natCast (w : World) {x y : Int} (h : w.InRange x y) :
    ∃ r c : Nat, (r : Int) = x ∧ (c : Int) = y ∧
      r < w.stride.toNat ∧ c < w.heightN := by
  obtain ⟨h1, h2, h3, h4⟩ := h
  exact ⟨x.toNat, y.toNat, Int.toNat_of_nonneg h1, Int.toNat_of_nonneg h3,
    by omega, by omega⟩

/-- The index of an in-range cell of a well-formed world: exact row-major
value, below the buffer length. -/
theorem World.index_inRange (w : World) (hwf : w.WF) {r c : Nat}
    (hr : r < w.stride.toNat) (hc : c < w.heightN) :
    w.index (r : Int) (c : Int) = w.stride.toNat * c + r ∧
      w.stride.toNat * c + r < w.front.length := by
  have hlt := w.inIdx_lt hr hc
  exact ⟨w.index_natCast (le_of_lt hwf.1) (lt_trans hlt hwf.len_lt), hlt⟩

/-- A small 2-by-2 well-formed world used to instantiate the theorems:
front `[Alive, Dead, Dead, Alive]`, back all Dead. -/
def demoWorld : World :=
  { stride := 2,
    front := [Cell.Alive, Cell.Dead, Cell.Dead, Cell.Alive],
    back := [Cell.Dead, Cell.Dead, Cell.Dead, Cell.Dead] }

/-- The 3-by-3 world seeded with the vertical blinker `(1,0), (1,1), (1,2)`,
built through the engine's own construction and cell-edit calls. -/
def blinker3 : Option World :=
  ((((World.new? 3 3).bind (fun w => w.set_cell? 1 0 Cell.Alive)).bind
    (fun w => w.set_cell? 1 1 Cell.Alive)).bind
    (fun w => w.set_cell? 1 2 Cell.Alive))

/-! ### Claims -/

/-- C1: a single `advance()` (`next_gen`) call on a well-formed world
succeeds, and for every in-range cell `(x, y)` the new front-buffer cell
equals the rule of the claim — Alive with `n < 2` dies, Alive with `n = 2` or
`n = 3` survives, Alive with `n > 3` dies, Dead with `n = 3` revives, Dead
otherwise stays Dead — applied to the pre-call front-buffer cell and its
pre-call neighbour count; moreover the buffers are swapped only at the end,
the old front becoming the new back, so every neighbour count was taken from
the unmodified previous generation. -/
theorem c1_advance_pointwise (w : World) (hwf : w.WF) (x y : Int)
    (hxy : w.InRange x y) :
    ∃ w' n cur, w.next_gen? = some w' ∧
      w.neighbour_count? x y = some n ∧
      w.cell_at? x y = some cur ∧
      w'.back = w.front ∧
      w'.cell_at? x y = some (specRule cur n) := by
  obtain ⟨r, c, hr, hc, hrW, hcH⟩ := w.InRange_natCast hxy
  obtain ⟨hidx, hlt⟩ := w.index_inRange hwf hrW hcH
  obtain ⟨w', hng, hstride, hback, hlen, heff, -⟩ := w.next_gen_spec hwf
  obtain ⟨n, cur, hn, hcur, hw'⟩ := heff r c hrW hcH
  subst hr
  subst hc
  refine ⟨w', n, cur, hng, hn, ?_, hback, ?_⟩
  · unfold World.cell_at?
    rw [hidx]
    exact hcur
  · unfold World.cell_at?
    have hidx' : w'.index (r : Int) (c : Int) = w.index (r : Int) (c : Int) := by
      unfold World.index
      rw [hstride]
    rw [hidx', hidx, hw',
      lifeRule_eq_specRule cur (w.neighbour_count?_nonneg _ _ hn)]

/-- C1 witness: the theorem instantiated at the concrete 2-by-2 world and
cell `(1, 1)`. -/
theorem c1_witness :
    demoWorld.WF ∧ demoWorld.InRange 1 1 ∧
    (∃ w' n cur, demoWorld.next_gen? = some w' ∧
      demoWorld.neighbour_count? 1 1 = some n ∧
      demoWorld.cell_at? 1 1 = some cur ∧
      w'.back = demoWorld.front ∧
      w'.cell_at? 1 1 = some (specRule cur n)) :=
  ⟨by decide, by decide, c1_advance_pointwise demoWorld (by decide) 1 1 (by decide)⟩

/-- C2: for every in-range cell `(x, y)` of a well-formed world whose buffer
length is `width * hgt`, `neighbour_count` returns exactly the number of the 8
Moore offsets `(dx, dy)` with `x+dx ≥ 0`, `y+dy ≥ 0`, linear index
`(y+dy)*width + (x+dx)` strictly below `width*hgt`, and an Alive front cell
there — negative coordinates are rejected explicitly, while `x+dx = width` is
not rejected and the index silently wraps to the next row whenever it stays
below the buffer length (the condition does not compare `x+dx` with the
width). -/
theorem c2_neighbour_count_characterization (w : World) (hgt x y : Int)
    (hwf : w.WF) (hlen : (w.front.length : Int) = w.stride * hgt)
    (hx : 0 ≤ x) (hx2 : x < w.stride) (hy : 0 ≤ y) (hy2 : y < hgt) :
    w.neighbour_count? x y = some (neighbourCountSpec w hgt x y) :=
  w.neighbour_count?_eq_spec hwf hlen hx hx2 hy hy2

/-- A 3-by-3 world whose only Alive cell is `(0, 1)` (index 3): reading the
neighbours of `(2, 0)` exercises the silent wrap of `x + dx = width`. -/
def wrapWorld : World :=
  { stride := 3,
    front := [Cell.Dead, Cell.Dead, Cell.Dead,
              Cell.Alive, Cell.Dead, Cell.Dead,
              Cell.Dead, Cell.Dead, Cell.Dead],
    back := List.replicate 9 Cell.Dead }

/-- C2 witness: the theorem instantiated at `wrapWorld` and cell `(2, 0)`;
the count is 1 — the Alive cell `(0, 1)` is silently counted as a neighbour
of `(2, 0)` through the wrapped index `3 = 0*3 + 3`. -/
theorem c2_witness :
    wrapWorld.WF ∧ (wrapWorld.front.length : Int) = wrapWorld.stride * 3 ∧
    wrapWorld.neighbour_count? 2 0 = some (neighbourCountSpec wrapWorld 3 2 0) ∧
    neighbourCountSpec wrapWorld 3 2 0 = 1 :=
  ⟨by decide, by decide,
    c2_neighbour_count_characterization wrapWorld 3 2 0 (by decide) (by decide)
      (by decide) (by decide) (by decide) (by decide),
    by decide⟩

/-- C3 counterexample: it is false that construction fails for every
non-positive dimension — at the concrete input `(2, 0)` (a non-positive
height) `new` computes the buffer length `(2*0) as usize = 0`, allocates two
empty buffers without any dimension check, and returns a World. -/
theorem c3_counterexample :
    ((2 : Int) ≤ 0 ∨ (0 : Int) ≤ 0) ∧ World.new? 2 0 ≠ none ∧
      World.new? 2 0 = some { stride := 2, front := [], back := [] } :=
  ⟨Or.inr le_rfl, by decide, by decide⟩

/-- C3 amended: `World::new` performs no validation of its dimensions at all;
construction aborts exactly when the computed buffer length
`(width * height) as usize` exceeds the allocator's hard capacity limit
(`isize::MAX`).  In particular non-positive dimensions whose computed length
is small — e.g. `(2, 0)` giving length 0, or `(-1, -1)` giving length 1 —
yield a World without any failure, while a negative product aborts only
because its `usize` cast is astronomically large. -/
theorem c3_amended (width height : Int) :
    (World.new? width height).isSome = true ↔
      newLength width height ≤ 2 ^ 63 - 1 := by
  unfold World.new?
  split <;> simp_all

/-- C4: for every coordinate pair whose mapped index is at or beyond the
front-buffer length, `set_cell` and `cell_at` fault (the unguarded indexed
access panics), whereas `neighbour_count` never faults for any coordinates:
its only indexed read is guarded by the internal length check. -/
theorem c4_out_of_range_faults (w : World) (x y : Int)
    (h : w.front.length ≤ w.index x y) :
    (∀ cl : Cell, w.set_cell? x y cl = none) ∧ w.cell_at? x y = none ∧
      (∀ x' y' : Int, (w.neighbour_count? x' y').isSome = true) := by
  refine ⟨fun cl => ?_, ?_, fun x' y' => w.neighbour_count?_isSome x' y'⟩
  · unfold World.set_cell?
    rw [if_neg (by omega)]
  · unfold World.cell_at?
    exact List.getElem?_eq_none h

/-- C4 witness: the theorem instantiated at the 2-by-2 world and the
out-of-range coordinates `(5, 0)` (mapped index `5 ≥ 4`). -/
theorem c4_witness :
    demoWorld.front.length ≤ demoWorld.index 5 0 ∧
    demoWorld.set_cell? 5 0 Cell.Alive = none ∧
    demoWorld.cell_at? 5 0 = none ∧
    (demoWorld.neighbour_count? 5 0).isSome = true :=
  ⟨by decide,
   (c4_out_of_range_faults demoWorld 5 0 (by decide)).1 Cell.Alive,
   (c4_out_of_range_faults demoWorld 5 0 (by decide)).2.1,
   (c4_out_of_range_faults demoWorld 5 0 (by decide)).2.2 5 0⟩

/-- C5: a world constructed with positive dimensions (of `i32`-representable
product) has every in-range cell Dead: `cell_at` returns `Dead` everywhere
before any edit or generation step. -/
theorem c5_new_all_dead (width height : Int) (hw : 0 < width) (hh : 0 < height)
    (hsmall : width * height < 2 ^ 31) (x y : Int)
    (hx : 0 ≤ x) (hx2 : x < width) (hy : 0 ≤ y) (hy2 : y < height) :
    ∃ w0, World.new? width height = some w0 ∧
      w0.cell_at? x y = some Cell.Dead := by
  have hprod : (0 : Int) ≤ width * height := mul_nonneg (by omega) (by omega)
  have hmul : i32Mul width height = width * height :=
    i32Mul_eq_of_small (by omega) (by omega)
  have hnl : newLength width height = (width * height).toNat := by
    unfold newLength
    rw [hmul]
    exact usizeOfI32_eq_toNat hprod (by omega)
  have hle : newLength width height ≤ 2 ^ 63 - 1 := by
    rw [hnl]
    omega
  refine ⟨_, by unfold World.new?; rw [if_pos hle], ?_⟩
  unfold World.cell_at?
  have hidxsmall : width * y + x < 2 ^ 31 := by
    have h1 : width * (y + 1) ≤ width * height :=
      mul_le_mul_of_nonneg_left (by omega) (by omega)
    have h2 : width * (y + 1) = width * y + width := by ring
    omega
  have hidx : (World.mk width (List.replicate (newLength width height) Cell.Dead)
      (List.replicate (newLength width height) Cell.Dead)).index x y =
      (width * y + x).toNat := by
    have h0 : (0 : Int) ≤ width * y := mul_nonneg (by omega) hy
    unfold World.index
    dsimp only
    rw [i32Mul_eq_of_small (by omega) (by omega),
        i32Add_eq_of_small (by omega) (by omega),
        usizeOfI32_eq_toNat (by omega) (by omega)]
  rw [hidx]
  have hlt9 : width * y + x < width * height := by
    have h1 : width * (y + 1) ≤ width * height :=
      mul_le_mul_of_nonneg_left (by omega) (by omega)
    have h2 : width * (y + 1) = width * y + width := by ring
    omega
  have h0 : (0 : Int) ≤ width * y := mul_nonneg (by omega) hy
  have hlt : (width * y + x).toNat < newLength width height := by
    rw [hnl]
    omega
  exact List.getElem?_replicate_of_lt hlt

/-- C5 witness: the theorem instantiated at a 2-by-3 construction and cell
`(1, 2)`. -/
theorem c5_witness :
    (0 : Int) < 2 ∧ (0 : Int) < 3 ∧ (2 * 3 : Int) < 2 ^ 31 ∧
    (∃ w0, World.new? 2 3 = some w0 ∧ w0.cell_at? 1 2 = some Cell.Dead) :=
  ⟨by decide, by decide, by decide,
    c5_new_all_dead 2 3 (by decide) (by decide) (by decide) 1 2 (by decide)
      (by decide) (by decide) (by decide)⟩

/-- C6: writing any cell value at an in-range coordinate succeeds and is
immediately visible: `set_cell(x, y, c)` followed by `cell_at(x, y)` returns
`c` (and, the state being purely functional, every later `cell_at` on the
resulting world reads the same value until the next mutation). -/
theorem c6_set_then_get (w : World) (hwf : w.WF) (x y : Int)
    (hxy : w.InRange x y) (cl : Cell) :
    ∃ w', w.set_cell? x y cl = some w' ∧ w'.cell_at? x y = some cl := by
  obtain ⟨r, c, hr, hc, hrW, hcH⟩ := w.InRange_natCast hxy
  obtain ⟨hidx, hlt⟩ := w.index_inRange hwf hrW hcH
  subst hr hc
  have hcond : w.index (r : Int) (c : Int) < w.front.length := by
    rw [hidx]
    exact hlt
  refine ⟨{ w with front := w.front.set (w.index (r : Int) (c : Int)) cl },
    ?_, ?_⟩
  · unfold World.set_cell?
    rw [if_pos hcond]
  · unfold World.cell_at?
    have e : ({ w with front := w.front.set (w.index (r : Int) (c : Int)) cl }
        : World).index (r : Int) (c : Int) = w.index (r : Int) (c : Int) := rfl
    rw [e, List.getElem?_set_self hcond]

/-- C6 witness: the theorem instantiated at the 2-by-2 world, cell `(0, 1)`,
value `Alive`. -/
theorem c6_witness :
    demoWorld.WF ∧ demoWorld.InRange 0 1 ∧
    (∃ w', demoWorld.set_cell? 0 1 Cell.Alive = some w' ∧
      w'.cell_at? 0 1 = some Cell.Alive) :=
  ⟨by decide, by decide,
    c6_set_then_get demoWorld (by decide) 0 1 (by decide) Cell.Alive⟩

/-- C10: `set_cell` modifies only the addressed cell — for any two distinct
in-range coordinates, the other cell reads the same before and after the
write, and the back buffer is untouched. -/
theorem c10_set_cell_frame (w : World) (hwf : w.WF) (x y x' y' : Int)
    (cl : Cell) (hxy : w.InRange x y) (hxy' : w.InRange x' y')
    (hne : ¬(x = x' ∧ y = y')) :
    ∃ w', w.set_cell? x y cl = some w' ∧
      w'.cell_at? x' y' = w.cell_at? x' y' ∧ w'.back = w.back := by
  obtain ⟨r, c, hr, hc, hrW, hcH⟩ := w.InRange_natCast hxy
  obtain ⟨r', c', hr', hc', hrW', hcH'⟩ := w.InRange_natCast hxy'
  obtain ⟨hidx, hlt⟩ := w.index_inRange hwf hrW hcH
  obtain ⟨hidx', hlt'⟩ := w.index_inRange hwf hrW' hcH'
  subst hr hc hr' hc'
  have hneidx : w.stride.toNat * c + r ≠ w.stride.toNat * c' + r' := by
    have hnat : ¬(r = r' ∧ c = c') := by
      intro hcontra
      exact hne ⟨by rw [hcontra.1], by rw [hcontra.2]⟩
    rcases Nat.lt_trichotomy c c' with h | h | h
    · have h1 : w.stride.toNat * (c + 1) ≤ w.stride.toNat * c' :=
        Nat.mul_le_mul_left _ (by omega)
      have h2 : w.stride.toNat * (c + 1) = w.stride.toNat * c + w.stride.toNat := by
        ring
      omega
    · subst h
      have hrr : r ≠ r' := fun hrr => hnat ⟨hrr, rfl⟩
      omega
    · have h1 : w.stride.toNat * (c' + 1) ≤ w.stride.toNat * c :=
        Nat.mul_le_mul_left _ (by omega)
      have h2 : w.stride.toNat * (c' + 1) = w.stride.toNat * c' + w.stride.toNat := by
        ring
      omega
  have hcond : w.index (r : Int) (c : Int) < w.front.length := by
    rw [hidx]
    exact hlt
  refine ⟨{ w with front := w.front.set (w.index (r : Int) (c : Int)) cl },
    ?_, ?_, rfl⟩
  · unfold World.set_cell?
    rw [if_pos hcond]
  · unfold World.cell_at?
    have e : ({ w with front := w.front.set (w.index (r : Int) (c : Int)) cl }
        : World).index (r' : Int) (c' : Int) = w.index (r' : Int) (c' : Int) := rfl
    rw [e, hidx, hidx']
    exact List.getElem?_set_ne hneidx

/-- C10 witness: the theorem instantiated at the 2-by-2 world, writing
`(0, 1)` and reading the untouched `(1, 0)`. -/
theorem c10_witness :
    demoWorld.WF ∧ demoWorld.InRange 0 1 ∧ demoWorld.InRange 1 0 ∧
    ¬((0 : Int) = 1 ∧ (1 : Int) = 0) ∧
    (∃ w', demoWorld.set_cell? 0 1 Cell.Alive = some w' ∧
      w'.cell_at? 1 0 = demoWorld.cell_at? 1 0 ∧ w'.back = demoWorld.back) :=
  ⟨by decide, by decide, by decide, by decide,
    c10_set_cell_frame demoWorld (by decide) 0 1 1 0 Cell.Alive (by decide)
      (by decide) (by decide)⟩

/-- C7 (failing input for the blinker claim): in the 3-by-3 grid — the
smallest the claim admits — the blinker `(1,0), (1,1), (1,2)` does transition
to the horizontal line `(0,1), (1,1), (2,1)` after one `advance()`, but a
second `advance()` does NOT restore the original state: the boundary wrap of
`neighbour_count` (the `x+dx = width` column leaking into the next row) makes
the cells `(2,0)` and `(2,1)` come out Alive, so the state at tick 2 differs
from the state at tick 0. -/
theorem c7_blinker_not_periodic :
    (blinker3.bind World.next_gen?).map World.front =
      some [Cell.Dead, Cell.Dead, Cell.Dead,
            Cell.Alive, Cell.Alive, Cell.Alive,
            Cell.Dead, Cell.Dead, Cell.Dead] ∧
    ((blinker3.bind World.next_gen?).bind World.next_gen?).map World.front =
      some [Cell.Dead, Cell.Alive, Cell.Alive,
            Cell.Dead, Cell.Alive, Cell.Alive,
            Cell.Dead, Cell.Alive, Cell.Dead] ∧
    ((blinker3.bind World.next_gen?).bind World.next_gen?).map World.front ≠
      blinker3.map World.front := by
  refine ⟨by decide, by decide, by decide⟩

/-- One `next_gen` step on an all-Dead front buffer whose length is exactly
`width * height`: it succeeds and the new front buffer is again all-Dead
(every position is overwritten with `lifeRule Dead 0 = Dead`). -/
theorem World.next_gen_all_dead (w : World) (hwf : w.WF)
    (hdiv : w.front.length = w.stride.toNat * w.heightN)
    (hdead : ∀ (i : Nat) (cell : Cell), w.front[i]? = some cell → cell = Cell.Dead) :
    ∃ w', w.next_gen? = some w' ∧ w'.stride = w.stride ∧
      w'.front.length = w.front.length ∧ w'.back.length = w.front.length ∧
      (∀ (i : Nat) (cell : Cell), w'.front[i]? = some cell → cell = Cell.Dead) := by
  obtain ⟨w', hng, hstride, hback, hlen, heff, -⟩ := w.next_gen_spec hwf
  refine ⟨w', hng, hstride, hlen, by rw [hback], ?_⟩
  intro i cell hi
  have hiN : i < w.front.length := by
    by_contra hle
    rw [List.getElem?_eq_none (by omega)] at hi
    cases hi
  have hW : 0 < w.stride.toNat := by
    have := hwf.1
    omega
  have hr : i % w.stride.toNat < w.stride.toNat := Nat.mod_lt _ hW
  have hc : i / w.stride.toNat < w.heightN := by
    have hcomm : w.stride.toNat * w.heightN = w.heightN * w.stride.toNat :=
      Nat.mul_comm _ _
    exact (Nat.div_lt_iff_lt_mul hW).mpr (by omega)
  have hdecomp : w.stride.toNat * (i / w.stride.toNat) + i % w.stride.toNat = i :=
    Nat.div_add_mod i w.stride.toNat
  obtain ⟨n, cur, hn, hcur, hw'⟩ := heff (i % w.stride.toNat) (i / w.stride.toNat) hr hc
  rw [hdecomp] at hcur hw'
  have h0 : w.neighbour_count? ((i % w.stride.toNat : Nat) : Int)
      ((i / w.stride.toNat : Nat) : Int) = some 0 :=
    w.neighbour_count?_all_dead _ _ hdead
  rw [h0] at hn
  have hn0 : n = 0 := (Option.some.inj hn).symm
  have hcd : cur = Cell.Dead := hdead i cur hcur
  rw [hw'] at hi
  have hcell : lifeRule cur n = cell := Option.some.inj hi
  rw [← hcell, hcd, hn0]
  rfl

/-- Iterating `next_gen` any number of times preserves an all-Dead front
buffer (for worlds whose buffer length is exactly `width * height`). -/
theorem World.advanceN_all_dead (k : Nat) :
    ∀ (w : World), w.WF →
      w.front.length = w.stride.toNat * w.heightN →
      (∀ (i : Nat) (cell : Cell), w.front[i]? = some cell → cell = Cell.Dead) →
      ∃ w', w.advanceN? k = some w' ∧ w'.stride = w.stride ∧
        w'.front.length = w.front.length ∧
        (∀ (i : Nat) (cell : Cell), w'.front[i]? = some cell → cell = Cell.Dead) := by
  induction k with
  | zero =>
    intro w _ _ h3
    exact ⟨w, rfl, rfl, rfl, h3⟩
  | succ k ih =>
    intro w hwf hdiv hdead
    obtain ⟨w1, hng, hstride, hlen, hbackL, hdead1⟩ :=
      w.next_gen_all_dead hwf hdiv hdead
    have hwf1 : w1.WF := by
      obtain ⟨a1, a2, a3⟩ := hwf
      refine ⟨by rw [hstride]; exact a1, by omega, by rw [hlen, hstride]; exact a3⟩
    have hheight1 : w1.heightN = w.heightN := by
      unfold World.heightN
      rw [hlen, hstride]
    have hdiv1 : w1.front.length = w1.stride.toNat * w1.heightN := by
      rw [hlen, hstride, hheight1]
      exact hdiv
    obtain ⟨w', hadv, hstride', hlen', hdead'⟩ := ih w1 hwf1 hdiv1 hdead1
    refine ⟨w', ?_, by rw [hstride', hstride], by rw [hlen', hlen], hdead'⟩
    simp only [World.advanceN?]
    rw [hng, Option.some_bind]
    exact hadv

/-- C8: the all-Dead state is a fixed point of `advance()`: on any
well-formed world of exact size `width * height` whose front buffer contains
no Alive cell, `advance()` applied any number of times succeeds and leaves
every in-range cell Dead. -/
theorem c8_all_dead_stable (w : World) (hwf : w.WF)
    (hdiv : w.front.length = w.stride.toNat * w.heightN)
    (hdead : ∀ (i : Nat) (cell : Cell), w.front[i]? = some cell → cell = Cell.Dead)
    (k : Nat) :
    ∃ w', w.advanceN? k = some w' ∧
      ∀ x y : Int, w.InRange x y → w'.cell_at? x y = some Cell.Dead := by
  obtain ⟨w', hadv, hstride, hlen, hdead'⟩ :=
    World.advanceN_all_dead k w hwf hdiv hdead
  refine ⟨w', hadv, fun x y hxy => ?_⟩
  obtain ⟨r, c, hr, hc, hrW, hcH⟩ := w.InRange_natCast hxy
  obtain ⟨hidx, hlt⟩ := w.index_inRange hwf hrW hcH
  subst hr hc
  unfold World.cell_at?
  have hidx' : w'.index (r : Int) (c : Int) = w.index (r : Int) (c : Int) := by
    unfold World.index
    rw [hstride]
  rw [hidx', hidx]
  have hlt' : w.stride.toNat * c + r < w'.front.length := by
    rw [hlen]
    exact hlt
  have hsome := List.getElem?_eq_getElem hlt'
  rw [hsome, hdead' _ _ hsome]

/-- A 2-by-2 all-Dead world. -/
def deadWorld : World :=
  { stride := 2,
    front := List.replicate 4 Cell.Dead,
    back := List.replicate 4 Cell.Dead }

/-- C8 witness: the theorem instantiated at the all-Dead 2-by-2 world, three
`advance()` calls, and cell `(1, 1)`. -/
theorem c8_witness :
    deadWorld.WF ∧
    deadWorld.front.length = deadWorld.stride.toNat * deadWorld.heightN ∧
    (∃ w', deadWorld.advanceN? 3 = some w' ∧
      w'.cell_at? 1 1 = some Cell.Dead) :=
  ⟨by decide, by decide, by
    obtain ⟨w', h1, h2⟩ := c8_all_dead_stable deadWorld (by decide) (by decide)
      (fun i cell h => by
        have h' : (List.replicate 4 Cell.Dead)[i]? = some cell := h
        rw [List.getElem?_replicate] at h'
        split at h'
        · exact (Option.some.inj h').symm
        · cases h') 3
    exact ⟨w', h1, h2 1 1 (by decide)⟩⟩

/-- A successful `next_gen` loop body preserves the back buffer's length
(every write is an in-place `set`). -/
theorem World.genStep_length {w : World} {b b' : List Cell} {row col : Int}
    (h : w.genStep b row col = some b') : b'.length = b.length := by
  simp only [World.genStep] at h
  split at h
  · cases h
  · split at h
    · cases h
    · split at h
      · cases h
        simp
      · cases h

/-- Folding option-binds from `none` stays `none`. -/
theorem foldl_bind_none {α : Type} (f : List Cell → α → Option (List Cell)) :
    ∀ l : List α,
      (l.foldl (fun acc a => acc.bind (fun bb => f bb a)) none) = none := by
  intro l
  induction l with
  | nil => rfl
  | cons a t ih => simpa using ih

/-- Folding length-preserving option-bind steps preserves the length. -/
theorem foldl_bind_length {α : Type} (f : List Cell → α → Option (List Cell))
    (hf : ∀ (b : List Cell) (a : α) (b' : List Cell),
      f b a = some b' → b'.length = b.length) :
    ∀ (l : List α) (b b' : List Cell),
      l.foldl (fun acc a => acc.bind (fun bb => f bb a)) (some b) = some b' →
      b'.length = b.length := by
  intro l
  induction l with
  | nil =>
    intro b b' h
    cases h
    rfl
  | cons a t ih =>
    intro b b' h
    simp only [List.foldl_cons, Option.some_bind] at h
    rcases hfa : f b a with _ | b1 <;> rw [hfa] at h
    · rw [foldl_bind_none] at h
      cases h
    · rw [ih b1 b' h, hf b a b1 hfa]

/-- A successful row loop preserves the back buffer's length. -/
theorem World.genRow_length {w : World} {b b' : List Cell} {col : Int}
    (h : w.genRow b col = some b') : b'.length = b.length := by
  unfold World.genRow at h
  exact foldl_bind_length (fun bb a => w.genStep bb a col)
    (fun bb a bb' hh => World.genStep_length hh) _ _ _ h

/-- Any successful `next_gen` keeps the stride, swaps the buffers, and
preserves both lengths (no `WF` assumption needed). -/
theorem World.next_gen?_shape {w w' : World} (h : w.next_gen? = some w') :
    w'.stride = w.stride ∧ w'.front.length = w.back.length ∧
      w'.back = w.front := by
  unfold World.next_gen? at h
  split at h
  · cases h
  · split at h
    · cases h
    · rename_i ht hh newBack hfold
      cases h
      exact ⟨rfl, foldl_bind_length (fun bb a => w.genRow bb a)
        (fun bb a bb' hh2 => World.genRow_length hh2) _ _ _ hfold, rfl⟩

/-- Any successful `set_cell` keeps the stride, the front length, and the
back buffer (no `WF` assumption needed). -/
theorem World.set_cell?_shape {w w' : World} {x y : Int} {cl : Cell}
    (h : w.set_cell? x y cl = some w') :
    w'.stride = w.stride ∧ w'.front.length = w.front.length ∧
      w'.back = w.back := by
  unfold World.set_cell? at h
  by_cases hlt : w.index x y < w.front.length
  · rw [if_pos hlt] at h
    cases h
    exact ⟨rfl, by simp, rfl⟩
  · rw [if_neg hlt] at h
    cases h

/-- A successful sequence of engine calls preserves the stride and keeps
both buffer lengths equal to their common initial value. -/
theorem World.applyOps_shape (s : Int) (L : Nat) :
    ∀ (ops : List Op) (v w' : World), v.stride = s → v.front.length = L →
      v.back.length = L → v.applyOps? ops = some w' →
      w'.stride = s ∧ w'.front.length = L ∧ w'.back.length = L := by
  intro ops
  induction ops with
  | nil =>
    intro v w' h1 h2 h3 h
    cases h
    exact ⟨h1, h2, h3⟩
  | cons op rest ih =>
    intro v w' h1 h2 h3 h
    simp only [World.applyOps?] at h
    rcases happ : v.applyOp op with _ | v1 <;> rw [happ] at h
    · cases h
    · rw [Option.some_bind] at h
      cases op with
      | set x y cl =>
        obtain ⟨e1, e2, e3⟩ := World.set_cell?_shape happ
        exact ih v1 w' (by rw [e1, h1]) (by rw [e2, h2]) (by rw [e3]; exact h3) h
      | advance =>
        obtain ⟨e1, e2, e3⟩ := World.next_gen?_shape happ
        exact ih v1 w' (by rw [e1, h1]) (by rw [e2]; exact h3) (by rw [e3]; exact h2) h

/-- C9: for a world constructed with positive dimensions (of
`i32`-representable product), any successful sequence of `set_cell` and
`advance` calls leaves both buffer lengths at `width*height`, `width()` still
returning the width and `height()` still computing the height — no engine
call ever changes the dimensions or the buffer lengths. -/
theorem c9_dimensions_invariant (width height : Int) (ops : List Op)
    (w0 w' : World) (hw : 0 < width) (hh : 0 < height)
    (hsmall : width * height < 2 ^ 31)
    (h0 : World.new? width height = some w0)
    (hops : w0.applyOps? ops = some w') :
    w'.width = width ∧ w'.front.length = (width * height).toNat ∧
      w'.back.length = (width * height).toNat ∧ w'.height? = some height := by
  have hprod : (0 : Int) ≤ width * height := mul_nonneg (by omega) (by omega)
  have hmul : i32Mul width height = width * height :=
    i32Mul_eq_of_small (by omega) (by omega)
  have hnl : newLength width height = (width * height).toNat := by
    unfold newLength
    rw [hmul]
    exact usizeOfI32_eq_toNat hprod (by omega)
  have hle : newLength width height ≤ 2 ^ 63 - 1 := by
    rw [hnl]
    omega
  unfold World.new? at h0
  rw [if_pos hle] at h0
  cases h0
  have hL : (List.replicate (newLength width height) Cell.Dead).length =
      (width * height).toNat := by
    rw [List.length_replicate, hnl]
  obtain ⟨e1, e2, e3⟩ :=
    World.applyOps_shape width ((width * height).toNat) ops _ w' rfl hL hL hops
  have hwidth31 : width < 2 ^ 31 := by
    have h1 : width * 1 ≤ width * height :=
      mul_le_mul_of_nonneg_left (by omega) (by omega)
    omega
  have hheight31 : height < 2 ^ 31 := by
    have h1 : 1 * height ≤ width * height :=
      mul_le_mul_of_nonneg_right (by omega) (by omega)
    omega
  have hwn : ((width.toNat : Nat) : Int) = width := Int.toNat_of_nonneg (by omega)
  have hhn : ((height.toNat : Nat) : Int) = height := Int.toNat_of_nonneg (by omega)
  have hprodNat : (width * height).toNat = width.toNat * height.toNat := by
    have hcast : width * height = ((width.toNat * height.toNat : Nat) : Int) := by
      push_cast
      rw [hwn, hhn]
    rw [hcast, Int.toNat_ofNat]
  refine ⟨by unfold World.width; exact e1, e2, e3, ?_⟩
  unfold World.height?
  have hsu : usizeOfI32 w'.stride = width.toNat := by
    rw [e1]
    exact usizeOfI32_eq_toNat (by omega) (by omega)
  rw [hsu, if_neg (by omega : ¬(width.toNat = 0)), e2, hprodNat,
    Nat.mul_div_cancel_left _ (by omega : 0 < width.toNat)]
  unfold i32OfUsize
  rw [wrap32_eq_of_small (by omega) (by omega), hhn]

/-- C9 witness: the theorem instantiated at a 2-by-2 construction followed by
one cell edit and two generation steps. -/
theorem c9_witness :
    ∃ w0 w', World.new? 2 2 = some w0 ∧
      w0.applyOps? [Op.set 0 0 Cell.Alive, Op.advance, Op.advance] = some w' ∧
      w'.width = 2 ∧ w'.front.length = ((2 * 2 : Int)).toNat ∧
      w'.back.length = ((2 * 2 : Int)).toNat ∧ w'.height? = some 2 := by
  have h0 : World.new? 2 2 =
      some ⟨2, List.replicate 4 Cell.Dead, List.replicate 4 Cell.Dead⟩ := by
    decide
  rcases hev : (World.mk 2 (List.replicate 4 Cell.Dead)
      (List.replicate 4 Cell.Dead)).applyOps?
      [Op.set 0 0 Cell.Alive, Op.advance, Op.advance] with _ | wres
  · exact absurd hev (by decide)
  · exact ⟨_, wres, h0, hev,
      c9_dimensions_invariant 2 2 [Op.set 0 0 Cell.Alive, Op.advance, Op.advance]
        _ wres (by decide) (by decide) (by decide) h0 hev⟩
